import Mathlib

/-!
Verification of the WorkflowX step-sequencing engine.

This file gives a shallow embedding of the engine's runtime core:

* the run loop of the `Workflow` class (`src/Workflow.ts`): `runStep`,
  the skip guard of `run`, and the terminal `WorkflowResult`;
* the blueprint operations of the `WorkflowBuilder` class
  (`src/builders/Builder.ts`): insertion-point resolution
  (`findMatchingStepIndices`, `processOption`, `getSortedIndices`,
  `handleMultiOption`, `calcInsertIndex`), step insertion/removal, and the
  context operations;
* the `WorkflowAsStep` adapter (`src/steps/WorkflowAsStep.ts`).

JavaScript values are modelled as follows: a step's return value is
`Option V` (`none` standing for `undefined`), a thrown value is `Thrown`
(an `Error` or any other value carried with its stringification), array
indices are `Int` (JavaScript numbers, with the `-1` sentinel and the
negative-index semantics of `slice`/`splice` kept), and a user-context
object is an association list of string keys read with last-assignment-wins
lookup, mirroring object spread.  Mutation of the context object by a step
body is modelled by the body returning the updated context.
-/

/-- The `on` continuation policy of a step: `"failure" | "success" | "always"`
(`src/Types.ts`, `Step.on`). -/
inductive StepOn where
  | failure
  | success
  | always
deriving DecidableEq, Repr

/-- A JavaScript `Error` value; only its message is relevant to the engine. -/
structure WError where
  message : String
deriving DecidableEq, Repr

/-- A thrown JavaScript value: either an `Error` instance, or any other value
recorded here through its stringification `String(value)`. -/
inductive Thrown where
  | isError (e : WError)
  | nonError (stringified : String)
deriving DecidableEq, Repr

/-- The normalization performed in `Workflow.runStep`:
`error instanceof Error ? error : new Error(String(error))`. -/
def normalizeThrown : Thrown → WError
  | .isError e => e
  | .nonError s => ⟨s⟩

/-- A step as consumed by the run loop (`src/Types.ts`, interface `Step`):
an optional name, an optional `on` policy, and a `run` body.  The body
receives the workflow's context object and either returns a value or throws;
since it may mutate the context object in place, it also yields the updated
context. -/
structure RStep (C V : Type) where
  name : Option String := none
  onPolicy : Option StepOn := none
  run : C → Except Thrown (Option V) × C

/-- The mutable per-run state of `Workflow.run` (`src/Workflow.ts`, lines
636-638): the context object, `result`, `caughtError` and `errorStep`. -/
structure RunState (C V : Type) where
  ctx : C
  result : Option V
  caughtError : Option WError
  errorStep : Int

/-- The `Workflow` class of `src/Workflow.ts`, restricted to its runtime
fields: the ordered step list and the context. -/
structure Workflow (C V : Type) where
  steps : List (RStep C V)
  context : C

/-- The method `Workflow.runStep` (`src/Workflow.ts`, lines 610-621): runs one
step against the context, catching a throw and normalizing it to an `Error`.
The `this.context` argument is made explicit. -/
def Workflow.runStep {C V : Type} (step : RStep C V) (ctx : C) :
    Except WError (Option V) × C :=
  match step.run ctx with
  | (.ok v, c2) => (.ok v, c2)
  | (.error t, c2) => (.error (normalizeThrown t), c2)

/-- The skip guard of the run loop (`src/Workflow.ts`, line 641):
`(!step.onPolicy || step.onPolicy === "success") && caughtError`. -/
def skipCheck {C V : Type} (step : RStep C V) (caughtError : Option WError) :
    Bool :=
  (step.onPolicy.isNone || step.onPolicy == some .success) && caughtError.isSome

/-- The `for` loop of `Workflow.run` (`src/Workflow.ts`, lines 640-654),
with the loop index made explicit. -/
def runAux {C V : Type} (steps : List (RStep C V)) (idx : Nat)
    (s : RunState C V) : RunState C V :=
  match steps with
  | [] => s
  | step :: rest =>
      if skipCheck step s.caughtError then
        runAux rest (idx + 1) s
      else
        match Workflow.runStep step s.ctx with
        | (.error e, c2) =>
            runAux rest (idx + 1)
              { s with ctx := c2, caughtError := some e, errorStep := (idx : Int) }
        | (.ok v, c2) =>
            runAux rest (idx + 1) { s with ctx := c2, result := v }

/-- The discriminated result union of a run (`src/Types.ts`,
`WorkflowResult`): `{status:"success", result}` or
`{status:"failed", step, error}`. -/
inductive WorkflowResult (V : Type) where
  | success (result : Option V)
  | failed (step : Int) (error : WError)
deriving DecidableEq, Repr

/-- The tail of `Workflow.run` (`src/Workflow.ts`, lines 656-669): build
`failedOutput` from `errorStep` and `caughtError`, `successOutput` from
`result`, and return `caughtError ? failedOutput : successOutput`. -/
def runOutput {C V : Type} (s : RunState C V) : WorkflowResult V :=
  match s.caughtError with
  | some e => .failed s.errorStep e
  | none => .success s.result

/-- The method `Workflow.run` (`src/Workflow.ts`, lines 635-670): iterate the
steps from the initial state (`result` undefined, `caughtError` null,
`errorStep` `-1`) and emit the failed output when an error was recorded,
the success output otherwise. -/
def Workflow.run {C V : Type} (w : Workflow C V) : WorkflowResult V :=
  runOutput (runAux w.steps 0 ⟨w.context, none, none, -1⟩)

/-- Replacing an `on:"failure"` policy by `on:"always"` on a step, leaving
everything else unchanged. -/
def promoteFailureToAlways {C V : Type} (step : RStep C V) : RStep C V :=
  { step with
    onPolicy :=
      if step.onPolicy = some .failure then some .always else step.onPolicy }

theorem skipCheck_promote {C V : Type} (step : RStep C V)
    (ce : Option WError) :
    skipCheck (promoteFailureToAlways step) ce = skipCheck step ce := by
  rcases h : step.onPolicy with _ | o
  · simp [skipCheck, promoteFailureToAlways, h]
  · cases o <;> simp [skipCheck, promoteFailureToAlways, h] <;> rfl

theorem runAux_promote {C V : Type} (steps : List (RStep C V)) (idx : Nat)
    (s : RunState C V) :
    runAux (steps.map promoteFailureToAlways) idx s = runAux steps idx s := by
  induction steps generalizing idx s with
  | nil => rfl
  | cons step rest ih =>
      show runAux (promoteFailureToAlways step :: rest.map promoteFailureToAlways) idx s = _
      rw [runAux, runAux, skipCheck_promote]
      have hrun : Workflow.runStep (promoteFailureToAlways step) s.ctx
          = Workflow.runStep step s.ctx := rfl
      by_cases hskip : skipCheck step s.caughtError
      · simp only [hskip, if_true, ih]
      · simp only [hskip, if_false, Bool.false_eq_true, hrun]
        cases Workflow.runStep step s.ctx with
        | mk r c2 => cases r <;> simp only [ih]

/-- C5: For every blueprint whose step list is empty, run() returns the
success result `{status:"success", result:undefined}`. -/
theorem c5_empty_steps_success {C V : Type} (context : C) :
    Workflow.run (⟨[], context⟩ : Workflow C V) = .success none := rfl

/-- C1 counterexample: a single step with `on:"failure"` reached with no
recorded failure is not skipped, contrary to the claim.  Its run body is
invoked and its return value becomes the run's result: the run yields
`success 7`, not the `success undefined` that skipping it (as on the empty
step list) would produce. -/
theorem c1_counterexample :
    Workflow.run (⟨[⟨none, some .failure, fun c => (.ok (some 7), c)⟩], ()⟩ :
        Workflow Unit Nat) = .success (some 7)
    ∧ Workflow.run (⟨[], ()⟩ : Workflow Unit Nat) = .success none
    ∧ (WorkflowResult.success (some 7) : WorkflowResult Nat) ≠ .success none :=
  ⟨rfl, rfl, by decide⟩

/-- C1 (amended): a step whose `on` is `"failure"` is never skipped; the run
loop treats it exactly like `on:"always"`: replacing `"failure"` by
`"always"` on every step leaves the result of every run unchanged.  (Only
steps whose `on` is unset or `"success"` are skipped after a failure has
been recorded.) -/
theorem c1_amended_failure_behaves_like_always {C V : Type}
    (w : Workflow C V) :
    Workflow.run ⟨w.steps.map promoteFailureToAlways, w.context⟩
      = Workflow.run w := by
  unfold Workflow.run
  rw [runAux_promote]

/-- A step whose `on` is unset or `"success"` — the only steps the run loop
ever skips. -/
def onSuccessOnly {C V : Type} (step : RStep C V) : Prop :=
  step.onPolicy = none ∨ step.onPolicy = some .success

/-- A step whose body returns normally on every context. -/
def neverThrows {C V : Type} (step : RStep C V) : Prop :=
  ∀ c, ∃ v c2, step.run c = (.ok v, c2)

/-- A step whose body throws on every context. -/
def alwaysThrows {C V : Type} (step : RStep C V) : Prop :=
  ∀ c, ∃ t c2, step.run c = (.error t, c2)

theorem runAux_nil {C V : Type} (idx : Nat) (s : RunState C V) :
    runAux [] idx s = s := rfl

theorem runAux_cons {C V : Type} (p : RStep C V) (rest : List (RStep C V))
    (idx : Nat) (s : RunState C V) :
    runAux (p :: rest) idx s =
      if skipCheck p s.caughtError then
        runAux rest (idx + 1) s
      else
        match Workflow.runStep p s.ctx with
        | (.error e, c2) =>
            runAux rest (idx + 1)
              { s with ctx := c2, caughtError := some e, errorStep := (idx : Int) }
        | (.ok v, c2) =>
            runAux rest (idx + 1) { s with ctx := c2, result := v } := rfl

theorem skipCheck_of_none {C V : Type} (step : RStep C V) :
    skipCheck step none = false := by
  simp [skipCheck]

theorem skipCheck_of_handler {C V : Type} (step : RStep C V)
    (ce : Option WError)
    (h : step.onPolicy = some .always ∨ step.onPolicy = some .failure) :
    skipCheck step ce = false := by
  rcases h with h | h <;> simp [skipCheck, h] <;> rfl

theorem skipCheck_of_successOnly {C V : Type} (step : RStep C V)
    (ce : Option WError) (h : onSuccessOnly step) (hce : ce.isSome) :
    skipCheck step ce = true := by
  rcases h with h | h <;> simp [skipCheck, h, hce]

theorem runAux_append {C V : Type} (xs ys : List (RStep C V)) :
    ∀ (idx : Nat) (s : RunState C V),
      runAux (xs ++ ys) idx s = runAux ys (idx + xs.length) (runAux xs idx s) := by
  induction xs with
  | nil =>
      intro idx s
      rw [List.nil_append, runAux_nil, List.length_nil, Nat.add_zero]
  | cons p rest ih =>
      intro idx s
      rw [List.cons_append, runAux_cons, runAux_cons]
      by_cases hskip : skipCheck p s.caughtError
      · rw [if_pos hskip, if_pos hskip, ih]
        congr 1
        simp only [List.length_cons]
        omega
      · rw [if_neg hskip, if_neg hskip]
        rcases hr : Workflow.runStep p s.ctx with ⟨r, c2⟩
        cases r with
        | error e =>
            dsimp only
            rw [ih]
            congr 1
            simp only [List.length_cons]
            omega
        | ok v =>
            dsimp only
            rw [ih]
            congr 1
            simp only [List.length_cons]
            omega

theorem runAux_noThrow {C V : Type} (xs : List (RStep C V))
    (h : ∀ p ∈ xs, neverThrows p) :
    ∀ (idx : Nat) (s : RunState C V), s.caughtError = none →
      (runAux xs idx s).caughtError = none
      ∧ (runAux xs idx s).errorStep = s.errorStep := by
  induction xs with
  | nil => exact fun idx s hce => ⟨hce, rfl⟩
  | cons p rest ih =>
      intro idx s hce
      have hskip : skipCheck p s.caughtError = false := by
        simp [skipCheck, hce]
      rw [runAux_cons, if_neg (by simp [hskip])]
      obtain ⟨v, c2, hv⟩ := h p (List.mem_cons_self p rest) s.ctx
      have hrs : Workflow.runStep p s.ctx = (.ok v, c2) := by
        unfold Workflow.runStep
        rw [hv]
      rw [hrs]
      exact ih (fun q hq => h q (List.mem_cons_of_mem p hq)) (idx + 1) _ hce

theorem runAux_keepError {C V : Type} (xs : List (RStep C V))
    (h : ∀ p ∈ xs, onSuccessOnly p ∨ neverThrows p) :
    ∀ (idx : Nat) (s : RunState C V), s.caughtError.isSome →
      (runAux xs idx s).caughtError = s.caughtError
      ∧ (runAux xs idx s).errorStep = s.errorStep := by
  induction xs with
  | nil => exact fun idx s _ => ⟨rfl, rfl⟩
  | cons p rest ih =>
      intro idx s hce
      rw [runAux_cons]
      by_cases hskip : skipCheck p s.caughtError
      · rw [if_pos hskip]
        exact ih (fun q hq => h q (List.mem_cons_of_mem p hq)) (idx + 1) s hce
      · rw [if_neg hskip]
        have hnt : neverThrows p := by
          rcases h p (List.mem_cons_self p rest) with hso | hnt
          · exact absurd (skipCheck_of_successOnly p s.caughtError hso hce) hskip
          · exact hnt
        obtain ⟨v, c2, hv⟩ := hnt s.ctx
        have hrs : Workflow.runStep p s.ctx = (.ok v, c2) := by
          unfold Workflow.runStep
          rw [hv]
        rw [hrs]
        exact ih (fun q hq => h q (List.mem_cons_of_mem p hq)) (idx + 1) _ hce

theorem runOutput_of_caught {C V : Type} (s : RunState C V) (e : WError)
    (hce : s.caughtError = some e) : runOutput s = .failed s.errorStep e := by
  unfold runOutput
  rw [hce]

/-- Unfolding of the loop on a throwing step reached with no recorded
failure: the step executes and its normalized error and index are
recorded. -/
theorem runAux_throw_step {C V : Type} (stp : RStep C V)
    (rest : List (RStep C V)) (idx : Nat) (s : RunState C V)
    (hce : s.caughtError = none) (t : Thrown) (c2 : C)
    (ht : stp.run s.ctx = (.error t, c2)) :
    runAux (stp :: rest) idx s = runAux rest (idx + 1)
      { s with
        ctx := c2
        caughtError := some (normalizeThrown t)
        errorStep := (idx : Int) } := by
  have hrs : Workflow.runStep stp s.ctx = (.error (normalizeThrown t), c2) := by
    unfold Workflow.runStep
    rw [ht]
  rw [runAux_cons, if_neg (by simp [skipCheck, hce]), hrs]

/-- Unfolding of the loop on a throwing step whose `on` is `"always"` or
`"failure"`: it is never skipped, and its normalized error and index
overwrite the recorded failure. -/
theorem runAux_handler_throw {C V : Type} (lstp : RStep C V)
    (rest : List (RStep C V)) (idx : Nat) (s : RunState C V)
    (hlon : lstp.onPolicy = some .always ∨ lstp.onPolicy = some .failure)
    (t : Thrown) (c2 : C) (ht : lstp.run s.ctx = (.error t, c2)) :
    runAux (lstp :: rest) idx s = runAux rest (idx + 1)
      { s with
        ctx := c2
        caughtError := some (normalizeThrown t)
        errorStep := (idx : Int) } := by
  have hrs : Workflow.runStep lstp s.ctx = (.error (normalizeThrown t), c2) := by
    unfold Workflow.runStep
    rw [ht]
  rw [runAux_cons,
    if_neg (by simp [skipCheck_of_handler lstp s.caughtError hlon]), hrs]

/-- After a prefix of steps that never throw followed by one step that always
throws, the loop continues with a state carrying that step's recorded error
and index, whatever the remaining steps are. -/
theorem runAux_prefix_throw {C V : Type} (pre : List (RStep C V))
    (stp : RStep C V) (hpre : ∀ p ∈ pre, neverThrows p)
    (hstp : alwaysThrows stp) (context : C) :
    ∃ (s2 : RunState C V) (e : WError),
      s2.caughtError = some e ∧ s2.errorStep = (pre.length : Int)
      ∧ ∀ rest, runAux (pre ++ stp :: rest) 0 ⟨context, none, none, -1⟩
          = runAux rest (pre.length + 1) s2 := by
  have h1 : (runAux pre 0 ⟨context, none, none, -1⟩).caughtError = none :=
    (runAux_noThrow pre hpre 0 ⟨context, none, none, -1⟩ rfl).1
  obtain ⟨t, c2, ht⟩ := hstp (runAux pre 0 ⟨context, none, none, -1⟩).ctx
  refine ⟨{ runAux pre 0 ⟨context, none, none, -1⟩ with
      ctx := c2
      caughtError := some (normalizeThrown t)
      errorStep := (pre.length : Int) }, normalizeThrown t, rfl, rfl, ?_⟩
  intro rest
  rw [runAux_append, Nat.zero_add,
    runAux_throw_step stp rest pre.length _ h1 t c2 ht]

/-- C2: if the step at index `i` throws and every later step has `on` unset or
`"success"`, the run fails with step index `i` and no step after `i` executes
(the run equals the run of the list truncated right after step `i`); and if
one later step with `on:"always"` or `on:"failure"` also throws while every
other later step is skipped or returns normally, the reported failure index
and error move to that later step — the last recorded failure wins. -/
theorem c2_failed_result_and_last_failure_wins {C V : Type}
    (pre : List (RStep C V)) (stp : RStep C V) (post : List (RStep C V))
    (context : C) (hpre : ∀ p ∈ pre, neverThrows p)
    (hstp : alwaysThrows stp) :
    ((∀ q ∈ post, onSuccessOnly q) →
      (∃ e, Workflow.run ⟨pre ++ stp :: post, context⟩
            = .failed (pre.length : Int) e)
      ∧ Workflow.run ⟨pre ++ stp :: post, context⟩
          = Workflow.run ⟨pre ++ [stp], context⟩)
    ∧ (∀ (mid : List (RStep C V)) (lstp : RStep C V)
          (post2 : List (RStep C V)),
        post = mid ++ lstp :: post2 →
        (∀ q ∈ mid, onSuccessOnly q ∨ neverThrows q) →
        (lstp.onPolicy = some .always ∨ lstp.onPolicy = some .failure) →
        alwaysThrows lstp →
        (∀ q ∈ post2, onSuccessOnly q ∨ neverThrows q) →
        (∃ e, Workflow.run ⟨pre ++ stp :: post, context⟩
              = .failed ((pre.length + 1 + mid.length : Nat) : Int) e)
        ∧ Workflow.run ⟨pre ++ stp :: post, context⟩
            = Workflow.run ⟨pre ++ stp :: (mid ++ [lstp]), context⟩) := by
  obtain ⟨s2, e, hce, hes, hrun⟩ := runAux_prefix_throw pre stp hpre hstp context
  have hsome : s2.caughtError.isSome := by rw [hce]; rfl
  constructor
  · intro hpost
    obtain ⟨hk1, hk2⟩ := runAux_keepError post
      (fun q hq => Or.inl (hpost q hq)) (pre.length + 1) s2 hsome
    have hfull : Workflow.run ⟨pre ++ stp :: post, context⟩
        = .failed (pre.length : Int) e := by
      show runOutput _ = _
      rw [hrun post, runOutput_of_caught _ e (by rw [hk1, hce]), hk2, hes]
    have htrunc : Workflow.run ⟨pre ++ [stp], context⟩
        = .failed (pre.length : Int) e := by
      show runOutput _ = _
      rw [hrun [], runAux_nil, runOutput_of_caught _ e hce, hes]
    exact ⟨⟨e, hfull⟩, hfull.trans htrunc.symm⟩
  · intro mid lstp post2 hpost hmid hlon hlthrow hpost2
    subst hpost
    obtain ⟨t2, c4, ht2⟩ := hlthrow (runAux mid (pre.length + 1) s2).ctx
    have hseg : ∀ rest2, runAux (mid ++ lstp :: rest2) (pre.length + 1) s2
        = runAux rest2 (pre.length + 1 + mid.length + 1)
          { runAux mid (pre.length + 1) s2 with
            ctx := c4
            caughtError := some (normalizeThrown t2)
            errorStep := ((pre.length + 1 + mid.length : Nat) : Int) } := by
      intro rest2
      rw [runAux_append]
      exact runAux_handler_throw lstp rest2 (pre.length + 1 + mid.length)
        _ hlon t2 c4 ht2
    have hfull : Workflow.run ⟨pre ++ stp :: (mid ++ lstp :: post2), context⟩
        = .failed ((pre.length + 1 + mid.length : Nat) : Int)
            (normalizeThrown t2) := by
      show runOutput _ = _
      rw [hrun (mid ++ lstp :: post2), hseg post2]
      obtain ⟨hk1, hk2⟩ := runAux_keepError post2 hpost2
        (pre.length + 1 + mid.length + 1)
        { runAux mid (pre.length + 1) s2 with
          ctx := c4
          caughtError := some (normalizeThrown t2)
          errorStep := ((pre.length + 1 + mid.length : Nat) : Int) } (by rfl)
      rw [runOutput_of_caught _ (normalizeThrown t2) (by rw [hk1]), hk2]
    have htrunc : Workflow.run ⟨pre ++ stp :: (mid ++ [lstp]), context⟩
        = .failed ((pre.length + 1 + mid.length : Nat) : Int)
            (normalizeThrown t2) := by
      show runOutput _ = _
      rw [hrun (mid ++ [lstp]), hseg [], runAux_nil,
        runOutput_of_caught _ (normalizeThrown t2) rfl]
    exact ⟨⟨normalizeThrown t2, hfull⟩, hfull.trans htrunc.symm⟩

/-- A step returning 1, used to instantiate the C2 theorem. -/
def cw2ok : RStep Unit Nat := ⟨none, none, fun c => (.ok (some 1), c)⟩

/-- A step throwing the error "e1", used to instantiate the C2 theorem. -/
def cw2throw : RStep Unit Nat :=
  ⟨none, none, fun c => (.error (.isError ⟨"e1"⟩), c)⟩

/-- An `on:"success"` step returning 2, used to instantiate the C2 theorem. -/
def cw2skip : RStep Unit Nat :=
  ⟨none, some .success, fun c => (.ok (some 2), c)⟩

/-- An `on:"always"` step throwing the error "e2", used to instantiate the C2
theorem. -/
def cw2handler : RStep Unit Nat :=
  ⟨none, some .always, fun c => (.error (.isError ⟨"e2"⟩), c)⟩

/-- Witness for C2 at concrete step lists: a throw at index 1 followed only by
an `on:"success"` step fails at index 1 without running the rest, and followed
by a throwing `on:"always"` step fails at index 2 instead. -/
theorem c2_witness :
    ((∃ e, Workflow.run (⟨[cw2ok, cw2throw, cw2skip], ()⟩ : Workflow Unit Nat)
        = .failed ((1 : Nat) : Int) e)
      ∧ Workflow.run (⟨[cw2ok, cw2throw, cw2skip], ()⟩ : Workflow Unit Nat)
        = Workflow.run (⟨[cw2ok, cw2throw], ()⟩ : Workflow Unit Nat))
    ∧ (∃ e, Workflow.run (⟨[cw2ok, cw2throw, cw2handler], ()⟩ :
          Workflow Unit Nat) = .failed ((2 : Nat) : Int) e) := by
  have hpre : ∀ p ∈ [cw2ok], neverThrows p := by
    intro p hp
    rw [List.mem_singleton] at hp
    subst hp
    exact fun c => ⟨some 1, c, rfl⟩
  have hthrow : alwaysThrows cw2throw := fun c => ⟨.isError ⟨"e1"⟩, c, rfl⟩
  have hA := (c2_failed_result_and_last_failure_wins
      [cw2ok] cw2throw [cw2skip] () hpre hthrow).1
    (by
      intro q hq
      rw [List.mem_singleton] at hq
      subst hq
      exact Or.inr rfl)
  have hB := (c2_failed_result_and_last_failure_wins
      [cw2ok] cw2throw [cw2handler] () hpre hthrow).2
    [] cw2handler [] rfl (by intro q hq; cases hq) (Or.inl rfl)
    (fun c => ⟨.isError ⟨"e2"⟩, c, rfl⟩) (by intro q hq; cases hq)
  exact ⟨⟨hA.1, hA.2⟩, hB.1⟩

/-- C6: a throw from a step body is caught by `runStep` and normalized — a
non-Error thrown value becomes an `Error` whose message is its
stringification — the run of the throwing step is the terminal failed
result, and `run()` itself always returns a result (success or failed),
never propagating an exception. -/
theorem c6_throws_caught_and_normalized {C V : Type}
    (step : RStep C V) (c : C) (t : Thrown) (c2 : C)
    (h : step.run c = (.error t, c2)) :
    Workflow.runStep step c = (.error (normalizeThrown t), c2)
    ∧ (∀ s, t = .nonError s → normalizeThrown t = ⟨s⟩)
    ∧ Workflow.run ⟨[step], c⟩ = .failed 0 (normalizeThrown t)
    ∧ ∀ (steps : List (RStep C V)) (ctx : C),
        (∃ r, Workflow.run ⟨steps, ctx⟩ = .success r)
        ∨ ∃ i e, Workflow.run ⟨steps, ctx⟩ = .failed i e := by
  refine ⟨?_, ?_, ?_, ?_⟩
  · unfold Workflow.runStep
    rw [h]
  · intro s hs
    subst hs
    rfl
  · show runOutput _ = _
    rw [runAux_throw_step step [] 0 ⟨c, none, none, -1⟩ rfl t c2 h,
      runAux_nil, runOutput_of_caught _ (normalizeThrown t) rfl]
    rfl
  · intro steps ctx
    cases hres : Workflow.run ⟨steps, ctx⟩ with
    | success r => exact Or.inl ⟨r, rfl⟩
    | failed i e => exact Or.inr ⟨i, e, rfl⟩

/-- Witness for C6: a step throwing the non-Error value stringified as
"boom" is caught, normalized to an `Error` with message "boom", and the run
terminates with the failed result. -/
theorem c6_witness :
    Workflow.runStep
        (⟨none, none, fun c => (.error (.nonError "boom"), c)⟩ :
          RStep Unit Nat) ()
      = (.error (normalizeThrown (.nonError "boom")), ())
    ∧ normalizeThrown (.nonError "boom") = ⟨"boom"⟩
    ∧ Workflow.run
        (⟨[⟨none, none, fun c => (.error (.nonError "boom"), c)⟩], ()⟩ :
          Workflow Unit Nat)
      = .failed 0 (normalizeThrown (.nonError "boom")) := by
  have h := c6_throws_caught_and_normalized
    (⟨none, none, fun c => (.error (.nonError "boom"), c)⟩ : RStep Unit Nat)
    () (.nonError "boom") () rfl
  exact ⟨h.1, h.2.1 "boom" rfl, h.2.2.1⟩

/-- A JavaScript object used as a user context: the list of its key/value
assignments in assignment order (later assignments shadow earlier ones). -/
abbrev Obj (κ : Type) : Type := List (String × κ)

/-- Reading a key of a context object: the value of its last assignment. -/
def lookupObj {κ : Type} (o : Obj κ) (k : String) : Option κ :=
  o.foldl (fun acc p => if p.1 = k then some p.2 else acc) none

/-- The object spread `{...a, ...b}`: the assignments of `a` followed by
those of `b`, so keys of `b` win on conflict. -/
def mergeObjs {κ : Type} (a b : Obj κ) : Obj κ := a ++ b

/-- The `WorkflowBlueprint` class (`src/blueprints/Blueprint.ts`): an ordered
step list, a distinguished `conclude` step, and a user context object.  The
step type is kept abstract (`α`); the builder only reads a step's name,
supplied by the `nameOf` parameter below. -/
structure WorkflowBlueprint (α κ : Type) where
  steps : List α
  conclude : α
  userContext : Obj κ

/-- The `pos` of an insertion point: `"before" | "after"`. -/
inductive IPos where
  | before
  | after
deriving DecidableEq, Repr

/-- An insertion point `{ index, pos }` produced while resolving `before` /
`after` options (indices are JavaScript numbers, so `Int`). -/
structure IPoint where
  index : Int
  pos : IPos
deriving DecidableEq, Repr

/-- The `StepInsertOptions` interface (`src/Types.ts`): `before` and `after`
are a number or a name pattern, `multi` a boolean or a number.  An absent key
is `none`; a key explicitly set to `undefined` in JavaScript is modelled the
same way. -/
structure StepInsertOptions where
  before : Option (Int ⊕ String) := none
  after : Option (Int ⊕ String) := none
  multi : Option (Bool ⊕ Int) := none

/-- The clamped start position of `Array.prototype.splice(start, ...)` and
`Array.prototype.slice(start)`: negative values count from the end, and the
result is clamped to `[0, len]`. -/
def jsSpliceStart (len : Nat) (start : Int) : Nat :=
  (if start < 0 then max ((len : Int) + start) 0 else min start (len : Int)).toNat

/-- JavaScript `xs.splice(start, 0, ...items)` (insertion only), as used in
`addStep`. -/
def jsSpliceInsert {α : Type} (xs : List α) (start : Int) (items : List α) :
    List α :=
  xs.take (jsSpliceStart xs.length start) ++ items
    ++ xs.drop (jsSpliceStart xs.length start)

/-- JavaScript `xs.slice(start)`, as used in `shiftStep`. -/
def jsSliceFrom {α : Type} (xs : List α) (start : Int) : List α :=
  xs.drop (jsSpliceStart xs.length start)

section Builder

variable {α κ : Type} (nameOf : α → Option String)
variable (globMatch : String → String → Bool)

/-- `WorkflowBuilder.findMatchingStepIndices` (`src/builders/Builder.ts`,
lines 69-78): map each step to its index when its name is truthy and the
pattern accepts it, `-1` otherwise, then filter out the `-1` entries.  The glob
matcher (`minimatch`) is the external parameter `globMatch`. -/
def findMatchingStepIndices (bp : WorkflowBlueprint α κ) (test : String) :
    List Int :=
  (bp.steps.enum.map (fun p =>
      match nameOf p.2 with
      | some nm => if nm != "" && globMatch nm test then (p.1 : Int) else -1
      | none => -1)).filter (fun i => i != -1)

/-- `WorkflowBuilder.processOption` (`src/builders/Builder.ts`, lines
90-121): `undefined` contributes nothing (`null`), a number one point, a
string one point per matching step name. -/
def processOption (bp : WorkflowBlueprint α κ)
    (option : Option (Int ⊕ String)) (pos : IPos) : Option (List IPoint) :=
  match option with
  | none => none
  | some (.inl n) => some [⟨n, pos⟩]
  | some (.inr s) =>
      some ((findMatchingStepIndices nameOf globMatch bp s).map
        (fun i => ⟨i, pos⟩))

/-- `WorkflowBuilder.defaultInsertIndex` (`src/builders/Builder.ts`, lines
128-138): the single point after the last step. -/
def defaultInsertIndex (bp : WorkflowBlueprint α κ) : List IPoint :=
  [⟨(bp.steps.length : Int), .after⟩]

/-- The sort comparator of `getSortedIndices` (`src/builders/Builder.ts`,
lines 160-168): by index difference, ties by `pos` with `"before"` first. -/
def cmpPoints (a b : IPoint) : Int :=
  if a.index ≠ b.index then a.index - b.index
  else if a.pos = .before then -1 else 1

/-- `WorkflowBuilder.getSortedIndices` (`src/builders/Builder.ts`, lines
146-171): concatenate the `before`-derived and `after`-derived points and
sort them with `cmpPoints`.  JavaScript's stable `Array.prototype.sort` is
modelled by stable insertion sort on the comparator's `≤ 0` relation. -/
def getSortedIndices (bp : WorkflowBlueprint α κ)
    (options : StepInsertOptions) : List IPoint :=
  ((processOption nameOf globMatch bp options.before .before).getD []
    ++ (processOption nameOf globMatch bp options.after .after).getD
      []).insertionSort (fun a b => cmpPoints a b ≤ 0)

/-- `WorkflowBuilder.handleMultiOption` (`src/builders/Builder.ts`, lines
186-209): `true`/`undefined` keep all points, `false` the first, a positive
number `n` the first `n`, any other number the points from
`max(length + n, 0)` on. -/
def handleMultiOption (indices : List IPoint)
    (multi : Option (Bool ⊕ Int)) : List IPoint :=
  match multi with
  | some (.inl true) | none => indices
  | some (.inl false) => indices.take 1
  | some (.inr n) =>
      if n > 0 then indices.take n.toNat
      else indices.drop (max ((indices.length : Int) + n) 0).toNat

/-- `WorkflowBuilder.calcInsertIndex` (`src/builders/Builder.ts`, lines
217-231): the default end-of-list point when no option is given, otherwise
the sorted points filtered by `multi`. -/
def calcInsertIndex (bp : WorkflowBlueprint α κ)
    (options : StepInsertOptions) : List IPoint :=
  if options.before = none ∧ options.after = none ∧ options.multi = none then
    defaultInsertIndex bp
  else
    handleMultiOption (getSortedIndices nameOf globMatch bp options)
      options.multi

/-- `WorkflowBuilder.pushStep` (`src/builders/Builder.ts`, lines 239-245). -/
def pushStep (bp : WorkflowBlueprint α κ) (steps : List α) :
    WorkflowBlueprint α κ :=
  { bp with steps := bp.steps ++ steps }

/-- `WorkflowBuilder.unshiftStep` (`src/builders/Builder.ts`, lines
253-259). -/
def unshiftStep (bp : WorkflowBlueprint α κ) (steps : List α) :
    WorkflowBlueprint α κ :=
  { bp with steps := steps ++ bp.steps }

/-- `WorkflowBuilder.addStep` (`src/builders/Builder.ts`, lines 268-304):
reverse the computed insertion points and splice the new steps in, at
`index` for `pos:"before"` and `index + 1` for `pos:"after"`. -/
def addStep (bp : WorkflowBlueprint α κ) (steps : List α)
    (options : StepInsertOptions) : WorkflowBlueprint α κ :=
  { bp with
    steps :=
      ((calcInsertIndex nameOf globMatch bp options).reverse).foldl
        (fun acc p =>
          match p.pos with
          | .before => jsSpliceInsert acc p.index steps
          | .after => jsSpliceInsert acc (p.index + 1) steps)
        bp.steps }

/-- `WorkflowBuilder.clearSteps` (`src/builders/Builder.ts`, lines
311-316). -/
def clearSteps (bp : WorkflowBlueprint α κ) : WorkflowBlueprint α κ :=
  { bp with steps := [] }

/-- `WorkflowBuilder.popStep` (`src/builders/Builder.ts`, lines 324-334):
`steps.slice(0, Math.max(0, steps.length - n))`. -/
def popStep (bp : WorkflowBlueprint α κ) (n : Int) :
    WorkflowBlueprint α κ :=
  { bp with
    steps := bp.steps.take (max 0 ((bp.steps.length : Int) - n)).toNat }

/-- `WorkflowBuilder.shiftStep` (`src/builders/Builder.ts`, lines 342-349):
`steps.slice(n)`. -/
def shiftStep (bp : WorkflowBlueprint α κ) (n : Int) :
    WorkflowBlueprint α κ :=
  { bp with steps := jsSliceFrom bp.steps n }

/-- `WorkflowBuilder.removeStep` (`src/builders/Builder.ts`, lines 357-384):
remove by name pattern (steps without a name never match) or by strict
equality with a member of the given array. -/
def removeStep [DecidableEq α] (bp : WorkflowBlueprint α κ)
    (target : List α ⊕ String) : WorkflowBlueprint α κ :=
  let testFn : α → Bool :=
    match target with
    | .inr pat => fun step =>
        match nameOf step with
        | some nm => globMatch nm pat
        | none => false
    | .inl list => fun step => list.contains step
  { bp with steps := bp.steps.filter (fun step => !(testFn step)) }

/-- `WorkflowBuilder.setConclude` (`src/builders/Builder.ts`, lines
392-401). -/
def setConclude (bp : WorkflowBlueprint α κ) (conclude : α) :
    WorkflowBlueprint α κ :=
  { bp with conclude := conclude }

/-- `WorkflowBuilder.setContext` (`src/builders/Builder.ts`, lines 409-419):
`blueprint.userContext = context || {}`. -/
def setContext (bp : WorkflowBlueprint α κ) (context : Option (Obj κ)) :
    WorkflowBlueprint α κ :=
  { bp with userContext := context.getD [] }

/-- `WorkflowBuilder.mergeContext` (`src/builders/Builder.ts`, lines
427-445): `{...blueprint.userContext, ...context}`. -/
def mergeContext (bp : WorkflowBlueprint α κ) (context : Option (Obj κ)) :
    WorkflowBlueprint α κ :=
  { bp with userContext := mergeObjs bp.userContext (context.getD []) }

/-- `WorkflowBuilder.updateContext` (`src/builders/Builder.ts`, lines
453-462): `{...blueprint.userContext, ...context}` with a mandatory
argument. -/
def updateContext (bp : WorkflowBlueprint α κ) (context : Obj κ) :
    WorkflowBlueprint α κ :=
  { bp with userContext := mergeObjs bp.userContext context }

end Builder

/-- C3: the `multi` filter keeps all sorted insertion points when `multi` is
undefined or `true`, only the first when `false`, the first `n` when a
positive integer `n`, the last `|n|` (start clamped to 0, never a negative
count) when a negative integer `n`, and none when `0` — in which case
`addStep` is a no-op on the step list. -/
theorem c3_multi_filter {α κ : Type} (nameOf : α → Option String)
    (globMatch : String → String → Bool)
    (indices : List IPoint) (n : Int) :
    handleMultiOption indices none = indices
    ∧ handleMultiOption indices (some (.inl true)) = indices
    ∧ handleMultiOption indices (some (.inl false)) = indices.take 1
    ∧ (0 < n →
        handleMultiOption indices (some (.inr n)) = indices.take n.toNat)
    ∧ (n < 0 →
        handleMultiOption indices (some (.inr n))
          = indices.drop (indices.length - (-n).toNat))
    ∧ handleMultiOption indices (some (.inr 0)) = []
    ∧ ∀ (bp : WorkflowBlueprint α κ) (steps : List α)
        (bef aft : Option (Int ⊕ String)),
        (addStep nameOf globMatch bp steps ⟨bef, aft, some (.inr 0)⟩).steps
          = bp.steps := by
  refine ⟨rfl, rfl, rfl, ?_, ?_, ?_, ?_⟩
  · intro hn
    show (if n > 0 then _ else _) = _
    rw [if_pos hn]
  · intro hn
    show (if n > 0 then _ else _) = _
    rw [if_neg (by omega)]
    congr 1
    omega
  · show (if (0 : Int) > 0 then indices.take (0 : Int).toNat
        else indices.drop (max ((indices.length : Int) + 0) 0).toNat) = []
    rw [if_neg (by omega)]
    have h0 : (max ((indices.length : Int) + 0) 0).toNat = indices.length := by
      omega
    rw [h0, List.drop_length]
  · intro bp steps bef aft
    have hfilter : calcInsertIndex nameOf globMatch bp
        ⟨bef, aft, some (.inr 0)⟩ = [] := by
      rw [calcInsertIndex, if_neg (by simp)]
      show (if (0 : Int) > 0 then
          (getSortedIndices nameOf globMatch bp
            ⟨bef, aft, some (.inr 0)⟩).take (0 : Int).toNat
        else
          (getSortedIndices nameOf globMatch bp
            ⟨bef, aft, some (.inr 0)⟩).drop
            (max (((getSortedIndices nameOf globMatch bp
              ⟨bef, aft, some (.inr 0)⟩).length : Int) + 0) 0).toNat) = []
      rw [if_neg (by omega)]
      have h0 : (max (((getSortedIndices nameOf globMatch bp
          ⟨bef, aft, some (.inr 0)⟩).length : Int) + 0) 0).toNat
          = (getSortedIndices nameOf globMatch bp
              ⟨bef, aft, some (.inr 0)⟩).length := by
        omega
      rw [h0, List.drop_length]
    show ((calcInsertIndex nameOf globMatch bp
        ⟨bef, aft, some (.inr 0)⟩).reverse.foldl _ bp.steps) = bp.steps
    rw [hfilter]
    rfl

/-- Insertion points used to instantiate the C3 theorem. -/
def cw3pts : List IPoint := [⟨0, .before⟩, ⟨1, .after⟩, ⟨2, .before⟩]

/-- A two-step blueprint used to instantiate the C3 theorem. -/
def cw3bp : WorkflowBlueprint String Nat := ⟨["a", "b"], "z", []⟩

/-- Witness for C3 at concrete inputs: `multi:2` keeps the first two of three
points, `multi:-1` the last one, and `multi:0` makes `addStep` a no-op. -/
theorem c3_witness :
    handleMultiOption cw3pts (some (.inr 2)) = [⟨0, .before⟩, ⟨1, .after⟩]
    ∧ handleMultiOption cw3pts (some (.inr (-1))) = [⟨2, .before⟩]
    ∧ (addStep (fun s => some s) (fun a b => a == b) cw3bp ["x"]
        ⟨some (.inl 0), none, some (.inr 0)⟩).steps = cw3bp.steps := by
  have h2 := @c3_multi_filter String Nat (fun s => some s)
    (fun a b => a == b) cw3pts 2
  have hm := @c3_multi_filter String Nat (fun s => some s)
    (fun a b => a == b) cw3pts (-1)
  refine ⟨(h2.2.2.2.1 (by omega)).trans (by decide),
    ((hm.2.2.2.2.1 (by omega)).trans (by decide)),
    h2.2.2.2.2.2.2 cw3bp ["x"] (some (.inl 0)) none⟩

/-- C8: `setContext(ctx)` followed by `setContext()` yields the empty
context, discarding every key of `ctx`, while `mergeContext()` with no
argument leaves a context equivalent to (indeed equal to) the prior one. -/
theorem c8_setContext_reset_vs_mergeContext_noop {α κ : Type}
    (bp : WorkflowBlueprint α κ) (ctx : Obj κ) (k : String) :
    (setContext (setContext bp (some ctx)) none).userContext = ([] : Obj κ)
    ∧ lookupObj ((setContext (setContext bp (some ctx)) none).userContext) k
        = none
    ∧ (mergeContext bp none).userContext = bp.userContext
    ∧ lookupObj ((mergeContext bp none).userContext) k
        = lookupObj bp.userContext k := by
  have hm : (mergeContext bp none).userContext = bp.userContext :=
    List.append_nil _
  exact ⟨rfl, rfl, hm, by rw [hm]⟩

/-- C9: removing more steps than exist with `popStep` or `shiftStep` yields
an empty step list (and the operations have no failure path at all). -/
theorem c9_overlong_pop_shift_empty {α κ : Type}
    (bp : WorkflowBlueprint α κ) (n : Int)
    (h : (bp.steps.length : Int) < n) :
    (popStep bp n).steps = [] ∧ (shiftStep bp n).steps = [] := by
  constructor
  · show bp.steps.take (max 0 ((bp.steps.length : Int) - n)).toNat = []
    have h0 : (max 0 ((bp.steps.length : Int) - n)).toNat = 0 := by omega
    rw [h0, List.take_zero]
  · show bp.steps.drop (jsSpliceStart bp.steps.length n) = []
    have h0 : jsSpliceStart bp.steps.length n = bp.steps.length := by
      unfold jsSpliceStart
      omega
    rw [h0, List.drop_length]

/-- A two-step blueprint used to instantiate the C9 theorem. -/
def cw9bp : WorkflowBlueprint String Nat := ⟨["a", "b"], "z", []⟩

/-- Witness for C9: popping or shifting 5 steps from a 2-step blueprint
empties it. -/
theorem c9_witness :
    (popStep cw9bp 5).steps = [] ∧ (shiftStep cw9bp 5).steps = [] :=
  c9_overlong_pop_shift_empty cw9bp 5 (by decide)

/-- C10: every builder operation changes only the field it is named after:
the step operations preserve `conclude` and `userContext`, and the
conclude/context operations preserve `steps` (and each other's fields).  The
source mutates the given blueprint in place and returns it; in this pure
embedding that reads as: the returned blueprint agrees with the input
everywhere outside the named field. -/
theorem c10_builder_frame_conditions {α κ : Type} [DecidableEq α]
    (nameOf : α → Option String) (globMatch : String → String → Bool)
    (bp : WorkflowBlueprint α κ) (ss : List α) (st : α)
    (options : StepInsertOptions) (n : Int) (oc : Option (Obj κ))
    (uc : Obj κ) (target : List α ⊕ String) :
    (pushStep bp ss).conclude = bp.conclude
    ∧ (pushStep bp ss).userContext = bp.userContext
    ∧ (unshiftStep bp ss).conclude = bp.conclude
    ∧ (unshiftStep bp ss).userContext = bp.userContext
    ∧ (addStep nameOf globMatch bp ss options).conclude = bp.conclude
    ∧ (addStep nameOf globMatch bp ss options).userContext = bp.userContext
    ∧ (popStep bp n).conclude = bp.conclude
    ∧ (popStep bp n).userContext = bp.userContext
    ∧ (shiftStep bp n).conclude = bp.conclude
    ∧ (shiftStep bp n).userContext = bp.userContext
    ∧ (clearSteps bp).conclude = bp.conclude
    ∧ (clearSteps bp).userContext = bp.userContext
    ∧ (removeStep nameOf globMatch bp target).conclude = bp.conclude
    ∧ (removeStep nameOf globMatch bp target).userContext = bp.userContext
    ∧ (setConclude bp st).steps = bp.steps
    ∧ (setConclude bp st).userContext = bp.userContext
    ∧ (setContext bp oc).steps = bp.steps
    ∧ (setContext bp oc).conclude = bp.conclude
    ∧ (mergeContext bp oc).steps = bp.steps
    ∧ (mergeContext bp oc).conclude = bp.conclude
    ∧ (updateContext bp uc).steps = bp.steps
    ∧ (updateContext bp uc).conclude = bp.conclude :=
  ⟨rfl, rfl, rfl, rfl, rfl, rfl, rfl, rfl, rfl, rfl, rfl, rfl, rfl, rfl,
    rfl, rfl, rfl, rfl, rfl, rfl, rfl, rfl⟩

/-- The target order of insertion points stated by the spec: index strictly
ascending, and on an index tie the `"before"` point ahead of the `"after"`
point. -/
def ptLE (a b : IPoint) : Prop :=
  a.index < b.index ∨ (a.index = b.index ∧ a.pos = .before ∧ b.pos = .after)

/-- Two insertion points that do not share both index and pos; all point
lists the builder actually sorts are pairwise like this. -/
def ptDistinct (a b : IPoint) : Prop := ¬(a.index = b.index ∧ a.pos = b.pos)

theorem ptLE_trans {a b c : IPoint} (h1 : ptLE a b) (h2 : ptLE b c) :
    ptLE a c := by
  rcases h1 with h1 | ⟨he1, hb1, ha1⟩
  · rcases h2 with h2 | ⟨he2, _, _⟩
    · exact Or.inl (by omega)
    · exact Or.inl (by omega)
  · rcases h2 with h2 | ⟨he2, hb2, ha2⟩
    · exact Or.inl (by omega)
    · rw [ha1] at hb2
      cases hb2

theorem ptLE_of_cmp_le {p q : IPoint} (hkey : ptDistinct p q)
    (h : cmpPoints p q ≤ 0) : ptLE p q := by
  unfold cmpPoints at h
  split_ifs at h with h1 h2
  · exact Or.inl (by omega)
  · refine Or.inr ⟨by omega, h2, ?_⟩
    cases hq : q.pos
    · exact absurd ⟨by omega, by rw [h2, hq]⟩ hkey
    · rfl
  · omega

theorem ptLE_of_cmp_gt {p q : IPoint} (hkey : ptDistinct p q)
    (h : ¬cmpPoints p q ≤ 0) : ptLE q p := by
  unfold cmpPoints at h
  split_ifs at h with h1 h2
  · exact Or.inl (by omega)
  · omega
  · cases hp : p.pos
    · exact absurd hp h2
    · cases hq : q.pos
      · exact Or.inr ⟨by omega, hq, hp⟩
      · exact absurd ⟨by omega, by rw [hp, hq]⟩ hkey

theorem orderedInsert_ptLE (p : IPoint) (l : List IPoint)
    (hl : List.Pairwise ptLE l) (hd : ∀ q ∈ l, ptDistinct q p) :
    List.Pairwise ptLE
      (List.orderedInsert (fun a b => cmpPoints a b ≤ 0) p l) := by
  induction l with
  | nil => exact List.pairwise_singleton ptLE p
  | cons q qs ih =>
      rw [List.orderedInsert]
      rcases List.pairwise_cons.mp hl with ⟨hq, hqs⟩
      by_cases hle : cmpPoints p q ≤ 0
      · rw [if_pos hle]
        have hpq : ptLE p q := ptLE_of_cmp_le
          (fun hk => hd q (List.mem_cons_self q qs) ⟨hk.1.symm, hk.2.symm⟩)
          hle
        refine List.pairwise_cons.mpr ⟨?_, hl⟩
        intro r hr
        rcases List.mem_cons.mp hr with rfl | hr
        · exact hpq
        · exact ptLE_trans hpq (hq r hr)
      · rw [if_neg hle]
        have hqp : ptLE q p := ptLE_of_cmp_gt
          (fun hk => hd q (List.mem_cons_self q qs) ⟨hk.1.symm, hk.2.symm⟩)
          hle
        refine List.pairwise_cons.mpr ⟨?_, ?_⟩
        · intro r hr
          rcases (List.mem_orderedInsert
              (fun a b => cmpPoints a b ≤ 0)).mp hr with rfl | hr
          · exact hqp
          · exact hq r hr
        · exact ih hqs (fun r hr => hd r (List.mem_cons_of_mem q hr))

theorem insertionSort_ptLE (l : List IPoint)
    (hl : List.Pairwise ptDistinct l) :
    List.Pairwise ptLE
      (List.insertionSort (fun a b => cmpPoints a b ≤ 0) l) := by
  induction l with
  | nil => exact List.Pairwise.nil
  | cons p ps ih =>
      rcases List.pairwise_cons.mp hl with ⟨hp, hps⟩
      rw [List.insertionSort]
      refine orderedInsert_ptLE p _ (ih hps) ?_
      intro q hq
      have hq2 : q ∈ ps :=
        (List.perm_insertionSort (fun a b => cmpPoints a b ≤ 0) ps).mem_iff.mp
          hq
      intro hk
      exact hp q hq2 ⟨hk.1.symm, hk.2.symm⟩

theorem mem_mapFiltered {β : Type} {g : Nat × β → Int}
    (hg : ∀ p, g p = (p.1 : Int) ∨ g p = -1) {l : List (Nat × β)} :
    ∀ y ∈ (l.map g).filter (fun i => i != -1), ∃ p ∈ l, y = (p.1 : Int) := by
  intro y hy
  rcases List.mem_filter.mp hy with ⟨hmem, hne⟩
  rcases List.mem_map.mp hmem with ⟨p, hp, rfl⟩
  rcases hg p with h | h
  · exact ⟨p, hp, h⟩
  · rw [h] at hne
    simp at hne

theorem mapFiltered_sorted {β : Type} {g : Nat × β → Int}
    (hg : ∀ p, g p = (p.1 : Int) ∨ g p = -1) :
    ∀ l : List (Nat × β), List.Pairwise (fun a b => a.1 < b.1) l →
      List.Pairwise (· < ·) ((l.map g).filter (fun i => i != -1))
      ∧ ∀ y ∈ (l.map g).filter (fun i => i != -1), 0 ≤ y := by
  intro l
  induction l with
  | nil => exact fun _ => ⟨List.Pairwise.nil, by simp⟩
  | cons p rest ih =>
      intro hpw
      rcases List.pairwise_cons.mp hpw with ⟨hp, hrest⟩
      obtain ⟨ihp, ihn⟩ := ih hrest
      rw [List.map_cons, List.filter_cons]
      by_cases hgp : (g p != -1) = true
      · rw [if_pos hgp]
        have hgpv : g p = (p.1 : Int) := by
          rcases hg p with h | h
          · exact h
          · rw [h] at hgp
            simp at hgp
        refine ⟨List.pairwise_cons.mpr ⟨?_, ihp⟩, ?_⟩
        · intro y hy
          obtain ⟨q, hq, hyv⟩ := mem_mapFiltered hg y hy
          rw [hgpv, hyv]
          exact_mod_cast hp q hq
        · intro y hy
          rcases List.mem_cons.mp hy with rfl | hy
          · rw [hgpv]
            exact Int.natCast_nonneg p.1
          · exact ihn y hy
      · rw [if_neg hgp]
        exact ⟨ihp, ihn⟩

theorem enum_pairwise_fst {β : Type} (l : List β) :
    List.Pairwise (fun a b : Nat × β => a.1 < b.1) l.enum := by
  have h := List.pairwise_lt_range l.length
  rw [← List.enum_map_fst l] at h
  exact List.pairwise_map.mp h

theorem findMatchingStepIndices_sorted {α κ : Type}
    (nameOf : α → Option String) (globMatch : String → String → Bool)
    (bp : WorkflowBlueprint α κ) (test : String) :
    List.Pairwise (· < ·) (findMatchingStepIndices nameOf globMatch bp test)
    ∧ ∀ i ∈ findMatchingStepIndices nameOf globMatch bp test, 0 ≤ i := by
  have hg : ∀ p : Nat × α,
      (match nameOf p.2 with
        | some nm => if nm != "" && globMatch nm test then (p.1 : Int) else -1
        | none => (-1 : Int)) = (p.1 : Int)
      ∨ (match nameOf p.2 with
        | some nm => if nm != "" && globMatch nm test then (p.1 : Int) else -1
        | none => (-1 : Int)) = -1 := by
    intro p
    rcases h : nameOf p.2 with _ | nm
    · right
      simp [h]
    · simp only [h]
      by_cases hc : (nm != "" && globMatch nm test) = true
      · left
        rw [if_pos hc]
      · right
        rw [if_neg hc]
  exact mapFiltered_sorted hg bp.steps.enum (enum_pairwise_fst bp.steps)

theorem processOption_spec {α κ : Type} (nameOf : α → Option String)
    (globMatch : String → String → Bool) (bp : WorkflowBlueprint α κ)
    (opt : Option (Int ⊕ String)) (pos : IPos) :
    List.Pairwise (fun a b : IPoint => a.index < b.index)
      ((processOption nameOf globMatch bp opt pos).getD [])
    ∧ ∀ p ∈ (processOption nameOf globMatch bp opt pos).getD [],
        p.pos = pos := by
  rcases opt with _ | opt
  · exact ⟨List.Pairwise.nil, by simp [processOption]⟩
  · rcases opt with n | s
    · refine ⟨List.pairwise_singleton _ _, ?_⟩
      intro p hp
      rcases List.mem_singleton.mp hp with rfl
      rfl
    · constructor
      · exact List.pairwise_map.mpr
          ((findMatchingStepIndices_sorted nameOf globMatch bp s).1.imp
            (fun h => h))
      · intro p hp
        rcases List.mem_map.mp hp with ⟨i, hi, rfl⟩
        rfl

theorem getSortedIndices_spec {α κ : Type} (nameOf : α → Option String)
    (globMatch : String → String → Bool) (bp : WorkflowBlueprint α κ)
    (options : StepInsertOptions) :
    List.Pairwise ptLE (getSortedIndices nameOf globMatch bp options)
    ∧ List.Perm (getSortedIndices nameOf globMatch bp options)
        ((processOption nameOf globMatch bp options.before .before).getD []
          ++ (processOption nameOf globMatch bp options.after .after).getD
            []) := by
  obtain ⟨hbs, hbp⟩ :=
    processOption_spec nameOf globMatch bp options.before .before
  obtain ⟨has, hap⟩ :=
    processOption_spec nameOf globMatch bp options.after .after
  constructor
  · apply insertionSort_ptLE
    apply List.pairwise_append.mpr
    refine ⟨?_, ?_, ?_⟩
    · exact hbs.imp (fun h hk => by omega)
    · exact has.imp (fun h hk => by omega)
    · intro a ha b hb
      intro hk
      have h2 := hk.2
      rw [hbp a ha, hap b hb] at h2
      cases h2
  · exact List.perm_insertionSort _ _

/-- The effective splice position of an insertion point: `index` for
`pos:"before"`, `index + 1` for `pos:"after"`. -/
def effPos (p : IPoint) : Int :=
  match p.pos with
  | .before => p.index
  | .after => p.index + 1

/-- Simultaneous multi-point insertion, stated from the spec's reading of
`addStep`: every position is measured in the original list, so no insertion
shifts another — the list is cut at each position in ascending order and the
new items are placed at every cut. -/
def insertSimultaneously {α : Type} (items : List α) :
    List Nat → List α → List α
  | [], xs => xs
  | e :: es, xs =>
      xs.take e ++ items
        ++ insertSimultaneously items (es.map (fun x => x - e)) (xs.drop e)
termination_by es xs => es.length
decreasing_by
  simp only [List.length_map, List.length_cons]
  omega

theorem insertSimultaneously_length_ge {α : Type} (items : List α) :
    ∀ (n : Nat) (es : List Nat) (xs : List α), es.length ≤ n →
      xs.length ≤ (insertSimultaneously items es xs).length := by
  intro n
  induction n with
  | zero =>
      intro es xs hlen
      have hnil : es = [] := List.length_eq_zero.mp (Nat.le_zero.mp hlen)
      subst hnil
      simp [insertSimultaneously]
  | succ n ih =>
      intro es xs hlen
      cases es with
      | nil => simp [insertSimultaneously]
      | cons e es2 =>
          have h1 := ih (es2.map (fun x => x - e)) (xs.drop e)
            (by simp only [List.length_map]; exact Nat.lt_succ_iff.mp hlen)
          simp only [insertSimultaneously, List.length_append,
            List.length_take, List.length_drop] at h1 ⊢
          omega

theorem insertSimultaneously_shift {α : Type} (items : List α)
    (es : List Nat) (xs : List α) (k : Nat)
    (hk : ∀ x ∈ es, k ≤ x) (hs : List.Pairwise (· ≤ ·) es)
    (hkx : k ≤ xs.length) :
    insertSimultaneously items es xs
      = xs.take k
        ++ insertSimultaneously items (es.map (fun x => x - k))
          (xs.drop k) := by
  cases es with
  | nil =>
      simp only [insertSimultaneously, List.map_nil]
      rw [List.take_append_drop]
  | cons f fs =>
      have hkf : k ≤ f := hk f (List.mem_cons_self f fs)
      have ht : xs.take k ++ (xs.drop k).take (f - k) = xs.take f := by
        rw [← List.take_add]
        congr 1
        omega
      have hd : (xs.drop k).drop (f - k) = xs.drop f := by
        rw [List.drop_drop]
        congr 1
        omega
      have hm : (fs.map (fun x => x - k)).map (fun x => x - (f - k))
          = fs.map (fun x => x - f) := by
        rw [List.map_map]
        apply List.map_congr_left
        intro x hx
        have hfx : f ≤ x := (List.pairwise_cons.mp hs).1 x hx
        simp only [Function.comp_apply]
        omega
      simp only [insertSimultaneously, List.map_cons]
      rw [hd, hm, ← ht]
      simp [List.append_assoc]

theorem addStepFold_eq_insertSimultaneously {α : Type} (items : List α) :
    ∀ (ps : List IPoint) (xs : List α),
      List.Pairwise (fun a b => effPos a ≤ effPos b) ps →
      (∀ p ∈ ps, 0 ≤ p.index ∧ effPos p ≤ (xs.length : Int)) →
      (ps.reverse).foldl
        (fun acc p =>
          match p.pos with
          | .before => jsSpliceInsert acc p.index items
          | .after => jsSpliceInsert acc (p.index + 1) items) xs
      = insertSimultaneously items
          (ps.map (fun p => (effPos p).toNat)) xs := by
  intro ps
  induction ps with
  | nil =>
      intro xs _ _
      simp only [List.reverse_nil, List.foldl_nil, List.map_nil,
        insertSimultaneously]
  | cons p ps ih =>
      intro xs hpw hrange
      rcases List.pairwise_cons.mp hpw with ⟨hp, hps⟩
      obtain ⟨hidx, hle⟩ := hrange p (List.mem_cons_self p ps)
      have h0 : 0 ≤ effPos p := by
        cases hpp : p.pos <;> simp only [effPos, hpp] <;> omega
      rw [List.reverse_cons, List.foldl_append]
      simp only [List.foldl_cons, List.foldl_nil]
      rw [ih xs hps (fun q hq => hrange q (List.mem_cons_of_mem p hq))]
      have hf : ∀ acc : List α,
          (match p.pos with
            | IPos.before => jsSpliceInsert acc p.index items
            | IPos.after => jsSpliceInsert acc (p.index + 1) items)
          = jsSpliceInsert acc (effPos p) items := by
        intro acc
        cases hpp : p.pos <;> simp only [effPos, hpp]
      rw [hf]
      have hlen := insertSimultaneously_length_ge items
        (ps.map (fun q => (effPos q).toNat)).length
        (ps.map (fun q => (effPos q).toNat)) xs (le_refl _)
      have hstart : jsSpliceStart
          (insertSimultaneously items
            (ps.map (fun q => (effPos q).toNat)) xs).length (effPos p)
          = (effPos p).toNat := by
        unfold jsSpliceStart
        omega
      have hshift := insertSimultaneously_shift items
        (ps.map (fun q => (effPos q).toNat)) xs (effPos p).toNat
        (by
          intro x hx
          rcases List.mem_map.mp hx with ⟨q, hq, rfl⟩
          exact Int.toNat_le_toNat (hp q hq))
        (List.pairwise_map.mpr (hps.imp (fun h => Int.toNat_le_toNat h)))
        (by omega)
      unfold jsSpliceInsert
      rw [hstart, hshift]
      have htl : (xs.take (effPos p).toNat).length = (effPos p).toNat := by
        rw [List.length_take]
        omega
      rw [List.take_left' htl, List.drop_left' htl]
      simp only [List.map_cons, insertSimultaneously]

theorem calcInsertIndex_sorted {α κ : Type} (nameOf : α → Option String)
    (globMatch : String → String → Bool) (bp : WorkflowBlueprint α κ)
    (options : StepInsertOptions) :
    List.Pairwise (fun a b => effPos a ≤ effPos b)
      (calcInsertIndex nameOf globMatch bp options) := by
  have himp : ∀ {a b : IPoint}, ptLE a b → effPos a ≤ effPos b := by
    intro a b hab
    rcases hab with h1 | ⟨h1, h2, h3⟩
    · cases ha : a.pos <;> cases hb : b.pos <;>
        simp only [effPos, ha, hb] <;> omega
    · simp only [effPos, h2, h3]
      omega
  unfold calcInsertIndex
  split_ifs with h
  · exact List.pairwise_singleton _ _
  · have hs := (getSortedIndices_spec nameOf globMatch bp options).1
    have hsub : List.Sublist
        (handleMultiOption (getSortedIndices nameOf globMatch bp options)
          options.multi)
        (getSortedIndices nameOf globMatch bp options) := by
      rcases hm : options.multi with _ | bm
      · simp only [handleMultiOption]
        exact List.Sublist.refl _
      · rcases bm with b | n
        · cases b
          · simp only [handleMultiOption]
            exact List.take_sublist _ _
          · simp only [handleMultiOption]
            exact List.Sublist.refl _
        · simp only [handleMultiOption]
          split_ifs
          · exact List.take_sublist _ _
          · exact List.drop_sublist _ _
    exact List.Pairwise.sublist hsub (hs.imp himp)

/-- C4: the resolved insertion points (before-derived then after-derived) are
sorted ascending by index with `"before"` ahead of `"after"` on ties (and are
exactly a permutation of the resolved points); and applying the insertion by
reversing the filtered list and splicing from highest position to lowest — at
`index` for `"before"`, `index + 1` for `"after"` — equals inserting the new
steps at every point's position as measured in the original list, i.e. no
earlier insertion point is shifted by the splices performed before it. -/
theorem c4_sorted_points_and_reverse_splice {α κ : Type}
    (nameOf : α → Option String) (globMatch : String → String → Bool)
    (bp : WorkflowBlueprint α κ) (options : StepInsertOptions)
    (items : List α) :
    (List.Pairwise ptLE (getSortedIndices nameOf globMatch bp options)
      ∧ List.Perm (getSortedIndices nameOf globMatch bp options)
          ((processOption nameOf globMatch bp options.before .before).getD []
            ++ (processOption nameOf globMatch bp options.after
              .after).getD []))
    ∧ ((∀ p ∈ calcInsertIndex nameOf globMatch bp options,
          0 ≤ p.index ∧ effPos p ≤ (bp.steps.length : Int)) →
        (addStep nameOf globMatch bp items options).steps
          = insertSimultaneously items
              ((calcInsertIndex nameOf globMatch bp options).map
                (fun p => (effPos p).toNat)) bp.steps) := by
  refine ⟨getSortedIndices_spec nameOf globMatch bp options, ?_⟩
  intro hrange
  exact addStepFold_eq_insertSimultaneously items
    (calcInsertIndex nameOf globMatch bp options) bp.steps
    (calcInsertIndex_sorted nameOf globMatch bp options) hrange

/-- A two-step blueprint with named steps, used to instantiate the C4
theorem. -/
def cw4bp : WorkflowBlueprint String Nat := ⟨["a", "b"], "z", []⟩

/-- Options combining a pattern `before` and a numeric `after`, used to
instantiate the C4 theorem. -/
def cw4opts : StepInsertOptions := ⟨some (.inr "a"), some (.inl 1), none⟩

/-- Witness for C4 at a concrete blueprint: the resolved points are sorted
as claimed, and the reversed high-to-low splicing of `addStep` equals the
simultaneous insertion at the original positions. -/
theorem c4_witness :
    List.Pairwise ptLE
      (getSortedIndices (fun s => some s) (fun a b => a == b) cw4bp cw4opts)
    ∧ (addStep (fun s => some s) (fun a b => a == b) cw4bp ["x"]
        cw4opts).steps
      = insertSimultaneously ["x"]
          ((calcInsertIndex (fun s => some s) (fun a b => a == b) cw4bp
            cw4opts).map (fun p => (effPos p).toNat)) cw4bp.steps := by
  have h := @c4_sorted_points_and_reverse_splice String Nat
    (fun s => some s) (fun a b => a == b) cw4bp cw4opts ["x"]
  exact ⟨h.1.1, h.2 (by decide)⟩

/-- Modelled from the spec: the per-run `RuntimeContext` state of the
`WorkflowRunner` (the runner class imported from `@/runners` is not among
the available sources; only its type tests and its callers are).  Per §3 it
holds `status`, `previousStepOutput` and `error`; the index of the last
recorded failure is carried alongside for the failed Result. -/
structure RuntimeState (κ V : Type) where
  ctx : Obj κ
  status : Bool
  previousStepOutput : Option V
  error : Option WError
  errorStep : Int

/-- Modelled from the spec: the continuation policy of §4.3 as the runner
applies it — `on` unset or `"success"` skips when a failure is recorded,
`"failure"` skips unless one is, `"always"` never skips. -/
def specSkip {C V : Type} (step : RStep C V) (failed : Bool) : Bool :=
  match step.onPolicy with
  | none | some .success => failed
  | some .failure => !failed
  | some .always => false

/-- Modelled from the spec: the runner's loop per §4.3 — a skipped step
leaves the state untouched; an executed throwing step records its normalized
error and index (overwriting any prior failure) and marks the run failed; an
executed returning step records its value as the latest output without
clearing a recorded failure. -/
def specRunnerAux {κ V : Type} (steps : List (RStep (Obj κ) V)) (idx : Nat)
    (s : RuntimeState κ V) : RuntimeState κ V :=
  match steps with
  | [] => s
  | step :: rest =>
      if specSkip step s.status then specRunnerAux rest (idx + 1) s
      else
        match step.run s.ctx with
        | (.error t, c2) =>
            specRunnerAux rest (idx + 1)
              { s with
                ctx := c2
                status := true
                error := some (normalizeThrown t)
                errorStep := (idx : Int) }
        | (.ok v, c2) =>
            specRunnerAux rest (idx + 1)
              { s with ctx := c2, previousStepOutput := v }

/-- Modelled from the spec: `WorkflowRunner.run` — missing from the
available sources — executes the blueprint's steps with `conclude`
logically last (§3) against the blueprint's user context, starting from the
caller-supplied runtime failure status (the adapter hands its own runtime
context to the runner); per §4.3 the Result is failed with the last recorded
failure's index and error if one was recorded, success with the last
recorded value otherwise. -/
def WorkflowRunner.run {κ V : Type}
    (bp : WorkflowBlueprint (RStep (Obj κ) V) κ) (initFailed : Bool) :
    WorkflowResult V :=
  let s := specRunnerAux (bp.steps ++ [bp.conclude]) 0
    ⟨bp.userContext, initFailed, none, none, -1⟩
  match s.error with
  | some e => .failed s.errorStep e
  | none => .success s.previousStepOutput

/-- The method `WorkflowAsStep.run` (`src/steps/WorkflowAsStep.ts`, lines
59-79): merge the given user context into the wrapped blueprint via
`WorkflowBuilder.mergeContext`, run the (spec-modelled) runner on it with
the caller's runtime context, return the inner success result, and throw —
modelled as `Except.error` — the inner failure's error itself. -/
def WorkflowAsStep.run {κ V : Type}
    (bp : WorkflowBlueprint (RStep (Obj κ) V) κ) (runtimeFailed : Bool)
    (userContext : Obj κ) : Except WError (Option V) :=
  match WorkflowRunner.run (mergeContext bp (some userContext))
      runtimeFailed with
  | .success r => .ok r
  | .failed _ e => .error e

theorem lookupObj_append {κ : Type} (a b : Obj κ) (k : String) :
    lookupObj (a ++ b) k
      = match lookupObj b k with
        | some v => some v
        | none => lookupObj a k := by
  unfold lookupObj
  rw [List.foldl_append]
  generalize (List.foldl
    (fun acc p => if p.1 = k then some p.2 else acc) none a) = init
  induction b generalizing init with
  | nil => rfl
  | cons p b2 ih =>
      rw [List.foldl_cons, List.foldl_cons,
        ih (if p.1 = k then some p.2 else init),
        ih (if p.1 = k then some p.2 else none)]
      cases hfb : List.foldl
          (fun acc p => if p.1 = k then some p.2 else acc) none b2 with
      | some v => rfl
      | none =>
          by_cases hp : p.1 = k
          · simp [hp]
          · simp [hp]

/-- C7: `WorkflowAsStep.run` shallow-merges the given user context into the
wrapped blueprint's context (new keys win) before running; when the inner
run succeeds it returns the inner success value, and when the inner run
fails it throws the inner failure's error itself, not an envelope around
it. -/
theorem c7_workflowAsStep_merge_and_unwrap {κ V : Type}
    (bp : WorkflowBlueprint (RStep (Obj κ) V) κ) (rtFailed : Bool)
    (uc : Obj κ) :
    (∀ r, WorkflowRunner.run
        { bp with userContext := mergeObjs bp.userContext uc } rtFailed
        = .success r →
      WorkflowAsStep.run bp rtFailed uc = .ok r)
    ∧ (∀ i e, WorkflowRunner.run
        { bp with userContext := mergeObjs bp.userContext uc } rtFailed
        = .failed i e →
      WorkflowAsStep.run bp rtFailed uc = .error e)
    ∧ (∀ k, lookupObj (mergeContext bp (some uc)).userContext k
        = match lookupObj uc k with
          | some v => some v
          | none => lookupObj bp.userContext k) := by
  have hbp : mergeContext bp (some uc)
      = { bp with userContext := mergeObjs bp.userContext uc } := rfl
  refine ⟨?_, ?_, ?_⟩
  · intro r h
    unfold WorkflowAsStep.run
    rw [hbp, h]
  · intro i e h
    unfold WorkflowAsStep.run
    rw [hbp, h]
  · intro k
    exact lookupObj_append bp.userContext uc k

/-- A step returning 5, used to instantiate the C7 theorem as a conclude. -/
def cw7ok : RStep (Obj Nat) Nat := ⟨none, none, fun c => (.ok (some 5), c)⟩

/-- A step throwing the error "err", used to instantiate the C7 theorem as a
conclude. -/
def cw7throw : RStep (Obj Nat) Nat :=
  ⟨none, none, fun c => (.error (.isError ⟨"err"⟩), c)⟩

/-- A blueprint with no steps, a conclude returning 5 and two context keys,
used to instantiate the C7 theorem. -/
def cw7bp1 : WorkflowBlueprint (RStep (Obj Nat) Nat) Nat :=
  ⟨[], cw7ok, [("a", 0), ("b", 2)]⟩

/-- A blueprint whose conclude throws, used to instantiate the C7 theorem. -/
def cw7bp2 : WorkflowBlueprint (RStep (Obj Nat) Nat) Nat :=
  ⟨[], cw7throw, []⟩

/-- Witness for C7: a succeeding inner run surfaces its value, a failing
inner run throws the inner error itself, and the merged context reads the
caller's value for an overridden key. -/
theorem c7_witness :
    WorkflowAsStep.run cw7bp1 false [("a", 1)] = .ok (some 5)
    ∧ WorkflowAsStep.run cw7bp2 false [] = .error ⟨"err"⟩
    ∧ lookupObj (mergeContext cw7bp1 (some [("a", 1)])).userContext "a"
        = some 1 := by
  have h1 := c7_workflowAsStep_merge_and_unwrap cw7bp1 false [("a", 1)]
  have h2 := c7_workflowAsStep_merge_and_unwrap cw7bp2 false []
  refine ⟨h1.1 (some 5) rfl, h2.2.1 0 ⟨"err"⟩ rfl, (h1.2.2 "a").trans rfl⟩
